import Mathlib

/-!
Shallow embedding of the `simplerouter` Go package.

Handlers (`http.Handler` / `http.HandlerFunc`) are modelled by an abstract
type `H`; a middleware (`func(http.Handler) http.Handler`) is a function
`H → H`.  A `Route` mirrors the Go struct field by field; since Lean
structures cannot be recursive, `Route` is an inductive with one constructor
and explicit projections.  Go's `nil` for handlers, middlewares supplied to
`Use`, child routes supplied to `Add` and the walk callback is modelled by
`Option`; a Go `panic` is modelled by `Except.error` carrying the panic
message.  The two observable effect channels of mounting — registrations
into the `http.ServeMux` and invocations of the walk callback — are modelled
by a single chronological event log; the `ServeMux` itself is the list of
`(pattern, handler)` pairs passed to `router.Handle`, in call order.
-/

namespace SimpleRouter

/-- Go: `type Middleware func(http.Handler) http.Handler`. -/
abbrev Middleware (H : Type) := H → H

/-- Go `applyMiddleware`: loops `i` from `len(mws)-1` down to `0` doing
`next = mws[i](next)`, i.e. a right fold of function application. -/
def applyMiddleware {H : Type} (mws : List (Middleware H)) : Middleware H :=
  fun next => mws.foldr (fun x acc => x acc) next

/-- Go `Route` struct: path segment, middleware list, child routes,
optional handler, method token. -/
inductive Route (H : Type) : Type where
  | mk (Path : String) (Middlewares : List (Middleware H))
       (Routes : List (Route H)) (Handler : Option H) (Method : String)

def Route.Path {H : Type} : Route H → String
  | .mk p _ _ _ _ => p

def Route.Middlewares {H : Type} : Route H → List (Middleware H)
  | .mk _ m _ _ _ => m

def Route.Routes {H : Type} : Route H → List (Route H)
  | .mk _ _ rs _ _ => rs

def Route.Handler {H : Type} : Route H → Option H
  | .mk _ _ _ h _ => h

def Route.Method {H : Type} : Route H → String
  | .mk _ _ _ _ me => me

/-- Go `NewRoute(path)`: empty middleware and child lists, nil handler,
empty method token. -/
def NewRoute {H : Type} (path : String) : Route H :=
  .mk path [] [] none ""

/-- One recorded effect of the mount traversal: either an invocation of the
walk callback (with the node and the pre-update accumulated path and
middlewares) or a `router.Handle(pattern, handler)` registration. -/
inductive Event (H : Type) : Type where
  | walk (node : Route H) (path : String) (middlewares : List (Middleware H))
  | handle (pattern : String) (handler : H)

mutual

/-- Go `(r *Route) inspectRoute(path, middlewares, router, walkFn)`.
`walkActive` models whether `walkFn != nil`; the mutations of `router` and
the calls of `walkFn` are appended to the chronological log. -/
def inspectRoute {H : Type} (r : Route H) (path : String)
    (middlewares : List (Middleware H)) (walkActive : Bool)
    (log : List (Event H)) : List (Event H) :=
  match r with
  | .mk rPath rMws rRoutes rHandler rMethod =>
    let chainedPath := path ++ rPath
    let chainedMiddleware := middlewares ++ rMws
    let log1 := if walkActive then
        log ++ [Event.walk (.mk rPath rMws rRoutes rHandler rMethod) path middlewares]
      else log
    let log2 := match rHandler with
      | some h => log1 ++
          [Event.handle (rMethod ++ " " ++ chainedPath)
            (applyMiddleware chainedMiddleware h)]
      | none => log1
    inspectRoutes rRoutes chainedPath chainedMiddleware walkActive log2

/-- The `for _, route := range r.Routes` loop of `inspectRoute`. -/
def inspectRoutes {H : Type} (rs : List (Route H)) (path : String)
    (middlewares : List (Middleware H)) (walkActive : Bool)
    (log : List (Event H)) : List (Event H) :=
  match rs with
  | [] => log
  | r :: rest =>
      inspectRoutes rest path middlewares walkActive
        (inspectRoute r path middlewares walkActive log)

end

/-- Projection of the event log to the `ServeMux` registration table. -/
def muxEntries {H : Type} (log : List (Event H)) : List (String × H) :=
  log.filterMap fun e => match e with
    | .handle pat h => some (pat, h)
    | .walk _ _ _ => none

/-- Projection of the event log to the walk-callback invocations, each with
its arguments `(route, path, middlewares)`. -/
def walkCalls {H : Type} (log : List (Event H)) :
    List (Route H × String × List (Middleware H)) :=
  log.filterMap fun e => match e with
    | .walk r p m => some (r, p, m)
    | .handle _ _ => none

/-- Go `(r *Route) Mount()`: fresh `http.ServeMux`, traversal with empty
initial path and middleware state and nil walk callback. -/
def Route.Mount {H : Type} (r : Route H) : List (String × H) :=
  muxEntries (inspectRoute r "" [] false [])

/-- Go `(r *Route) MountAndWalk(walkFn)`: panics when `walkFn == nil`,
otherwise mounts with the callback active.  The callback body is external,
so only its presence (`Option Unit`) and the list of invocations made to it
are modelled. -/
def Route.MountAndWalk {H : Type} (r : Route H) (walkFn : Option Unit) :
    Except String (List (String × H) × List (Route H × String × List (Middleware H))) :=
  match walkFn with
  | none => .error "walkFn parameter cannot be nil"
  | some _ =>
      let log := inspectRoute r "" [] true []
      .ok (muxEntries log, walkCalls log)

/-- Go `(r *Route) Use(middlewares ...Middleware)`: panics when any supplied
middleware is nil (before appending anything), otherwise appends them all in
order.  Arguments are `Option`-valued to model nil-ability. -/
def Route.Use {H : Type} (r : Route H) (middlewares : List (Option (Middleware H))) :
    Except String (Route H) :=
  if middlewares.any fun mw => mw.isNone then
    .error "middlewares parameter cannot contain nil middlewares"
  else
    match r with
    | .mk p m rs h me => .ok (.mk p (m ++ middlewares.filterMap id) rs h me)

/-- Go `(r *Route) Add(routes ...*Route)`: panics when any supplied child is
nil (before appending anything), otherwise appends them all in order. -/
def Route.Add {H : Type} (r : Route H) (routes : List (Option (Route H))) :
    Except String (Route H) :=
  if routes.any fun c => c.isNone then
    .error "routes parameter cannot contain nil routes"
  else
    match r with
    | .mk p m rs h me => .ok (.mk p m (rs ++ routes.filterMap id) h me)

/-! ### Spec-side (compositional) descriptions of the traversal

These definitions follow the specification's wording — pre-order traversal,
callback before registration before children, accumulated path and
middleware state — and are compared against the state-passing translation
`inspectRoute` of the source. -/

mutual

/-- Spec-side trace of visiting one node: the walk-callback event (when a
callback is active), then the registration event (when the node carries a
handler), then the traces of the children in order, with the accumulated
state extended by the node's own path segment and middlewares. -/
def specTrace {H : Type} (w : Bool) (path : String) (mws : List (Middleware H)) :
    Route H → List (Event H)
  | .mk rPath rMws rRoutes rHandler rMethod =>
    (if w then [Event.walk (.mk rPath rMws rRoutes rHandler rMethod) path mws] else []) ++
    (match rHandler with
      | some h => [Event.handle (rMethod ++ " " ++ (path ++ rPath))
          (applyMiddleware (mws ++ rMws) h)]
      | none => []) ++
    specTraceList w (path ++ rPath) (mws ++ rMws) rRoutes

/-- Spec-side trace of visiting a list of sibling nodes left to right. -/
def specTraceList {H : Type} (w : Bool) (path : String) (mws : List (Middleware H)) :
    List (Route H) → List (Event H)
  | [] => []
  | r :: rest => specTrace w path mws r ++ specTraceList w path mws rest

end

mutual

/-- Spec-side list of walk-callback invocations: every node exactly once, in
pre-order, paired with the parent's accumulated path and middlewares (the
pre-update values). -/
def specWalks {H : Type} (path : String) (mws : List (Middleware H)) :
    Route H → List (Route H × String × List (Middleware H))
  | .mk rPath rMws rRoutes rHandler rMethod =>
    (.mk rPath rMws rRoutes rHandler rMethod, path, mws) ::
      specWalksList (path ++ rPath) (mws ++ rMws) rRoutes

/-- Spec-side walk invocations for a list of sibling nodes. -/
def specWalksList {H : Type} (path : String) (mws : List (Middleware H)) :
    List (Route H) → List (Route H × String × List (Middleware H))
  | [] => []
  | r :: rest => specWalks path mws r ++ specWalksList path mws rest

end

mutual

/-- Pre-order enumeration of the nodes of a tree. -/
def Route.nodes {H : Type} : Route H → List (Route H)
  | .mk rPath rMws rRoutes rHandler rMethod =>
    .mk rPath rMws rRoutes rHandler rMethod :: nodesList rRoutes

/-- Pre-order enumeration of the nodes of a forest. -/
def nodesList {H : Type} : List (Route H) → List (Route H)
  | [] => []
  | r :: rest => Route.nodes r ++ nodesList rest

end

mutual

/-- Number of nodes of a tree. -/
def Route.size {H : Type} : Route H → Nat
  | .mk _ _ rRoutes _ _ => 1 + sizeList rRoutes

/-- Number of nodes of a forest. -/
def sizeList {H : Type} : List (Route H) → Nat
  | [] => 0
  | r :: rest => Route.size r + sizeList rest

end

/-! ### The state-passing traversal equals the spec-side trace -/

mutual

theorem inspectRoute_eq {H : Type} (r : Route H) (path : String)
    (mws : List (Middleware H)) (w : Bool) (log : List (Event H)) :
    inspectRoute r path mws w log = log ++ specTrace w path mws r := by
  cases r with
  | mk rPath rMws rRoutes rHandler rMethod =>
    rw [inspectRoute.eq_def, specTrace.eq_def]
    cases rHandler with
    | none => cases w <;> simp [inspectRoutes_eq]
    | some h => cases w <;> simp [inspectRoutes_eq]

theorem inspectRoutes_eq {H : Type} (rs : List (Route H)) (path : String)
    (mws : List (Middleware H)) (w : Bool) (log : List (Event H)) :
    inspectRoutes rs path mws w log = log ++ specTraceList w path mws rs := by
  cases rs with
  | nil => rw [inspectRoutes.eq_def, specTraceList.eq_def]; simp
  | cons r rest =>
    rw [inspectRoutes.eq_def, specTraceList.eq_def]
    simp only [inspectRoute_eq, inspectRoutes_eq]
    simp

end

theorem muxEntries_append {H : Type} (a b : List (Event H)) :
    muxEntries (a ++ b) = muxEntries a ++ muxEntries b := by
  simp [muxEntries]

theorem walkCalls_append {H : Type} (a b : List (Event H)) :
    walkCalls (a ++ b) = walkCalls a ++ walkCalls b := by
  simp [walkCalls]

theorem walkCalls_nil {H : Type} : walkCalls ([] : List (Event H)) = [] := rfl

theorem walkCalls_walk_cons {H : Type} (r : Route H) (p : String)
    (m : List (Middleware H)) (l : List (Event H)) :
    walkCalls (Event.walk r p m :: l) = (r, p, m) :: walkCalls l := rfl

theorem walkCalls_handle_cons {H : Type} (pat : String) (h : H) (l : List (Event H)) :
    walkCalls (Event.handle pat h :: l) = walkCalls l := rfl

theorem muxEntries_nil {H : Type} : muxEntries ([] : List (Event H)) = [] := rfl

theorem muxEntries_walk_cons {H : Type} (r : Route H) (p : String)
    (m : List (Middleware H)) (l : List (Event H)) :
    muxEntries (Event.walk r p m :: l) = muxEntries l := rfl

theorem muxEntries_handle_cons {H : Type} (pat : String) (h : H) (l : List (Event H)) :
    muxEntries (Event.handle pat h :: l) = (pat, h) :: muxEntries l := rfl

mutual

theorem walkCalls_specTrace {H : Type} (path : String) (mws : List (Middleware H))
    (r : Route H) : walkCalls (specTrace true path mws r) = specWalks path mws r := by
  cases r with
  | mk rPath rMws rRoutes rHandler rMethod =>
    rw [specTrace.eq_def, specWalks.eq_def]
    cases rHandler with
    | none =>
        simp [walkCalls_append, walkCalls_nil, walkCalls_walk_cons,
          walkCalls_handle_cons, walkCalls_specTraceList]
    | some h =>
        simp [walkCalls_append, walkCalls_nil, walkCalls_walk_cons,
          walkCalls_handle_cons, walkCalls_specTraceList]

theorem walkCalls_specTraceList {H : Type} (path : String) (mws : List (Middleware H))
    (rs : List (Route H)) :
    walkCalls (specTraceList true path mws rs) = specWalksList path mws rs := by
  cases rs with
  | nil => rw [specTraceList.eq_def, specWalksList.eq_def]; simp [walkCalls_nil]
  | cons r rest =>
    rw [specTraceList.eq_def, specWalksList.eq_def]
    rw [walkCalls_append, walkCalls_specTrace, walkCalls_specTraceList]

end

mutual

theorem muxEntries_specTrace_walk {H : Type} (w : Bool) (path : String)
    (mws : List (Middleware H)) (r : Route H) :
    muxEntries (specTrace w path mws r) = muxEntries (specTrace false path mws r) := by
  cases r with
  | mk rPath rMws rRoutes rHandler rMethod =>
    rw [specTrace.eq_def, specTrace.eq_def]
    cases rHandler with
    | none =>
      cases w <;>
        simp [muxEntries_append, muxEntries_nil, muxEntries_walk_cons,
          muxEntries_handle_cons, muxEntries_specTraceList_walk true rRoutes]
    | some h =>
      cases w <;>
        simp [muxEntries_append, muxEntries_nil, muxEntries_walk_cons,
          muxEntries_handle_cons, muxEntries_specTraceList_walk true rRoutes]

theorem muxEntries_specTraceList_walk {H : Type} (w : Bool) (rs : List (Route H))
    (path : String) (mws : List (Middleware H)) :
    muxEntries (specTraceList w path mws rs) = muxEntries (specTraceList false path mws rs) := by
  cases rs with
  | nil => rw [specTraceList.eq_def, specTraceList.eq_def]
  | cons r rest =>
    rw [specTraceList.eq_def, specTraceList.eq_def]
    rw [muxEntries_append, muxEntries_append, muxEntries_specTrace_walk,
      muxEntries_specTraceList_walk w rest, muxEntries_specTrace_walk false,
      muxEntries_specTraceList_walk false rest]

end

mutual

theorem specWalks_fst {H : Type} (path : String) (mws : List (Middleware H))
    (r : Route H) : (specWalks path mws r).map Prod.fst = Route.nodes r := by
  cases r with
  | mk rPath rMws rRoutes rHandler rMethod =>
    rw [specWalks.eq_def, Route.nodes.eq_def]
    simp [specWalksList_fst]

theorem specWalksList_fst {H : Type} (path : String) (mws : List (Middleware H))
    (rs : List (Route H)) :
    (specWalksList path mws rs).map Prod.fst = nodesList rs := by
  cases rs with
  | nil => rw [specWalksList.eq_def, nodesList.eq_def]; simp
  | cons r rest =>
    rw [specWalksList.eq_def, nodesList.eq_def]
    simp [specWalks_fst, specWalksList_fst]

end

mutual

theorem nodes_length {H : Type} (r : Route H) :
    (Route.nodes r).length = Route.size r := by
  cases r with
  | mk rPath rMws rRoutes rHandler rMethod =>
    rw [Route.nodes.eq_def, Route.size.eq_def]
    simp [nodesList_length]
    omega

theorem nodesList_length {H : Type} (rs : List (Route H)) :
    (nodesList rs).length = sizeList rs := by
  cases rs with
  | nil => rw [nodesList.eq_def, sizeList.eq_def]; simp
  | cons r rest =>
    rw [nodesList.eq_def, sizeList.eq_def]
    simp [nodes_length, nodesList_length]

end

/-! ### Positions in the tree and root-to-node chains -/

/-- Node of the tree reached from `r` by following the child indices in
`pos` (`[]` is `r` itself). -/
def Route.sub? {H : Type} : Route H → List Nat → Option (Route H)
  | r, [] => some r
  | r, i :: p =>
    match (Route.Routes r)[i]? with
    | some c => Route.sub? c p
    | none => none

/-- The chain of nodes from the root `r` down to and including the node at
position `pos`. -/
def Route.chain {H : Type} : Route H → List Nat → Option (List (Route H))
  | r, [] => some [r]
  | r, i :: p =>
    match (Route.Routes r)[i]? with
    | some c => (Route.chain c p).map fun l => r :: l
    | none => none

/-- Spec-side: literal concatenation (no separators) of the path segments of
a chain of nodes, in order. -/
def pathConcat {H : Type} : List (Route H) → String
  | [] => ""
  | r :: l => Route.Path r ++ pathConcat l

/-- Spec-side: concatenation of the middleware lists of a chain of nodes,
preserving inter-level and intra-level order. -/
def mwConcat {H : Type} : List (Route H) → List (Middleware H)
  | [] => []
  | r :: l => Route.Middlewares r ++ mwConcat l

theorem chain_cons_of_some {H : Type} (r : Route H) (pos : List Nat)
    (l : List (Route H)) (hc : Route.chain r pos = some l) :
    ∃ l2, l = r :: l2 := by
  cases pos with
  | nil => rw [Route.chain] at hc; exact ⟨[], by simpa using hc.symm⟩
  | cons i p =>
    rw [Route.chain] at hc
    cases hi : (Route.Routes r)[i]? with
    | none => rw [hi] at hc; cases hc
    | some c =>
      rw [hi] at hc
      obtain ⟨l2, _, hl⟩ := Option.map_eq_some'.mp hc
      exact ⟨l2, hl.symm⟩

theorem mem_muxEntries_specTraceList {H : Type} (w : Bool) (path : String)
    (mws : List (Middleware H)) (rs : List (Route H)) (c : Route H)
    (x : String × H) (hm : c ∈ rs) (hx : x ∈ muxEntries (specTrace w path mws c)) :
    x ∈ muxEntries (specTraceList w path mws rs) := by
  induction rs with
  | nil => cases hm
  | cons r rest ih =>
    rw [specTraceList.eq_def]
    rw [muxEntries_append]
    rcases List.mem_cons.mp hm with h | h
    · exact List.mem_append_left _ (h ▸ hx)
    · exact List.mem_append_right _ (ih h)

/-- Master lemma: a handler-bearing node at position `pos` contributes the
registration whose pattern is its own method token, a space, and the
accumulated concatenation of the chain's path segments, and whose handler is
the composition of the accumulated middleware concatenation around its own
handler. -/
theorem entry_mem_specTrace {H : Type} (w : Bool) :
    ∀ (pos : List Nat) (r : Route H) (path : String) (mws : List (Middleware H))
      (l : List (Route H)) (n : Route H) (h : H),
      Route.chain r pos = some l → l.getLast? = some n → Route.Handler n = some h →
      (Route.Method n ++ " " ++ (path ++ pathConcat l),
        applyMiddleware (mws ++ mwConcat l) h) ∈ muxEntries (specTrace w path mws r) := by
  intro pos
  induction pos with
  | nil =>
    intro r path mws l n h hc hlast hh
    rw [Route.chain] at hc
    cases hc
    simp only [List.getLast?_singleton, Option.some.injEq] at hlast
    subst hlast
    cases r with
    | mk rPath rMws rRoutes rHandler rMethod =>
      rw [Route.Handler] at hh
      subst hh
      rw [specTrace.eq_def]
      rw [muxEntries_append, muxEntries_append]
      apply List.mem_append_left
      apply List.mem_append_right
      simp [muxEntries_handle_cons, muxEntries_nil, pathConcat, mwConcat,
        Route.Path, Route.Middlewares, Route.Method, String.append_assoc]
  | cons i p ih =>
    intro r path mws l n h hc hlast hh
    cases r with
    | mk rPath rMws rRoutes rHandler rMethod =>
      rw [Route.chain] at hc
      cases hi : (Route.Routes (.mk rPath rMws rRoutes rHandler rMethod))[i]? with
      | none => rw [hi] at hc; cases hc
      | some c =>
        rw [hi] at hc
        obtain ⟨l2, hc2, hl⟩ := Option.map_eq_some'.mp hc
        subst hl
        obtain ⟨l3, hl3⟩ := chain_cons_of_some c p l2 hc2
        have hlast2 : l2.getLast? = some n := by
          subst hl3
          rw [List.getLast?_cons_cons] at hlast
          exact hlast
        have hmem := ih c (path ++ rPath) (mws ++ rMws) l2 n h hc2 hlast2 hh
        rw [specTrace.eq_def]
        rw [muxEntries_append]
        apply List.mem_append_right
        have hcm : c ∈ rRoutes := List.getElem?_mem (by simpa [Route.Routes] using hi)
        have := mem_muxEntries_specTraceList w (path ++ rPath) (mws ++ rMws)
          rRoutes c _ hcm hmem
        simpa [pathConcat, mwConcat, Route.Path, Route.Middlewares,
          String.append_assoc, List.append_assoc] using this

/-- The compiled table of `Mount` is the spec-side pre-order entry list. -/
theorem mount_eq_spec {H : Type} (r : Route H) :
    Route.Mount r = muxEntries (specTrace false "" [] r) := by
  rw [Route.Mount, inspectRoute_eq]
  simp

/-! ### Replacing the method token of one node -/

/-- Replace the `Method` field of the node at position `pos`, leaving every
other field and every other node unchanged (no-op when the position does not
exist). -/
def Route.updateMethod {H : Type} : Route H → List Nat → String → Route H
  | .mk p m rs h _, [], nm => .mk p m rs h nm
  | .mk p m rs h me, i :: pos, nm =>
    match rs[i]? with
    | some c => .mk p m (rs.set i (Route.updateMethod c pos nm)) h me
    | none => .mk p m rs h me

theorem getLast?_cons_of_ne_nil {α : Type} (a : α) (l : List α) (h : l ≠ []) :
    (a :: l).getLast? = l.getLast? := by
  cases l with
  | nil => cases h rfl
  | cons b t => exact List.getLast?_cons_cons

/-- Replacing the method token at a strict ancestor of a position leaves the
chain's path concatenation, middleware concatenation and final node
unchanged. -/
theorem chain_updateMethod {H : Type} (nm : String) :
    ∀ (q : List Nat) (r : Route H) (rest : List Nat) (l : List (Route H)),
      rest ≠ [] → Route.chain r (q ++ rest) = some l →
      ∃ l2, Route.chain (Route.updateMethod r q nm) (q ++ rest) = some l2 ∧
        pathConcat l2 = pathConcat l ∧ mwConcat l2 = mwConcat l ∧
        l2.getLast? = l.getLast? := by
  intro q
  induction q with
  | nil =>
    intro r rest l hne hc
    cases rest with
    | nil => cases hne rfl
    | cons j tail =>
      cases r with
      | mk p m rs h me =>
        rw [List.nil_append] at hc ⊢
        rw [Route.chain] at hc
        cases hj : (Route.Routes (.mk p m rs h me))[j]? with
        | none => rw [hj] at hc; cases hc
        | some c =>
          rw [hj] at hc
          obtain ⟨l2, hc2, hl⟩ := Option.map_eq_some'.mp hc
          obtain ⟨l3, hl3⟩ := chain_cons_of_some c tail l2 hc2
          refine ⟨Route.mk p m rs h nm :: l2, ?_, ?_, ?_, ?_⟩
          · rw [Route.updateMethod, Route.chain]
            have : (Route.Routes (.mk p m rs h nm))[j]? = some c := by
              simpa [Route.Routes] using hj
            rw [this]
            simp [hc2]
          · rw [← hl]; rfl
          · rw [← hl]; rfl
          · rw [← hl]
            rw [getLast?_cons_of_ne_nil _ _ (hl3 ▸ List.cons_ne_nil _ _),
              getLast?_cons_of_ne_nil _ _ (hl3 ▸ List.cons_ne_nil _ _)]
  | cons i q ih =>
    intro r rest l hne hc
    cases r with
    | mk p m rs h me =>
      rw [List.cons_append] at hc ⊢
      rw [Route.chain] at hc
      cases hi : (Route.Routes (.mk p m rs h me))[i]? with
      | none => rw [hi] at hc; cases hc
      | some c =>
        rw [hi] at hc
        obtain ⟨l2, hc2, hl⟩ := Option.map_eq_some'.mp hc
        obtain ⟨l2', hc2', hp', hm', hlast'⟩ := ih c rest l2 hne hc2
        obtain ⟨l3, hl3⟩ := chain_cons_of_some c (q ++ rest) l2 hc2
        obtain ⟨l3', hl3'⟩ := chain_cons_of_some _ (q ++ rest) l2' hc2'
        have hilen : i < rs.length := by
          have := hi
          rw [Route.Routes] at this
          exact (List.getElem?_eq_some_iff.mp this).1
        refine ⟨Route.mk p m (rs.set i (Route.updateMethod c q nm)) h me :: l2', ?_, ?_, ?_, ?_⟩
        · rw [Route.updateMethod]
          have hrs : rs[i]? = some c := by simpa [Route.Routes] using hi
          rw [hrs]
          rw [Route.chain]
          have hset : (Route.Routes (.mk p m (rs.set i (Route.updateMethod c q nm)) h me))[i]? =
              some (Route.updateMethod c q nm) := by
            simp [Route.Routes, List.getElem?_set_self hilen]
          rw [hset]
          simp [hc2']
        · rw [← hl]
          show Route.Path _ ++ pathConcat l2' = Route.Path _ ++ pathConcat l2
          rw [hp']
          rfl
        · rw [← hl]
          show Route.Middlewares _ ++ mwConcat l2' = Route.Middlewares _ ++ mwConcat l2
          rw [hm']
          rfl
        · rw [← hl]
          rw [getLast?_cons_of_ne_nil _ _ (hl3' ▸ List.cons_ne_nil _ _),
            getLast?_cons_of_ne_nil _ _ (hl3 ▸ List.cons_ne_nil _ _)]
          exact hlast'

/-! ### Store-level model of the traversal

To express that mounting never mutates the tree, the tree is also modelled
at the level of Go's heap: nodes live in a store and `Routes` holds
references (indices).  The traversal threads the store, so a mutation of any
node by the traversal would be observable in the returned store; `fuel`
bounds the recursion depth (the Go recursion terminates because intended
usage is tree-shaped, which reference lists cannot guarantee). -/

/-- One Go `Route` struct as heap data: child routes are references. -/
structure RouteData (H : Type) : Type where
  Path : String
  Middlewares : List (Middleware H)
  Routes : List Nat
  Handler : Option H
  Method : String

/-- The heap of route nodes; a `*Route` is an index into it. -/
abbrev Store (H : Type) := List (RouteData H)

/-- Effect of the store-level traversal; walk events carry the node's
reference. -/
inductive EventS (H : Type) : Type where
  | walk (node : Nat) (path : String) (middlewares : List (Middleware H))
  | handle (pattern : String) (handler : H)

/-- Store-level translation of the loop over the child references, threading
the store from each child visit into the next; `f` is the visit of a single
child (the recursive call of the traversal at the remaining fuel). -/
def inspectRoutesS {H : Type}
    (f : Store H → Nat → List (EventS H) → Option (Store H × List (EventS H))) :
    Store H → List Nat → List (EventS H) → Option (Store H × List (EventS H))
  | σ, [], log => some (σ, log)
  | σ, id :: rest, log =>
    match f σ id log with
    | none => none
    | some (σ2, log2) => inspectRoutesS f σ2 rest log2

/-- Store-level translation of `inspectRoute`: same steps as `inspectRoute`,
with the store passed in and returned (the source performs no field
assignment, so the translation returns it as received).  `none` models a
dangling reference or exhausted fuel. -/
def inspectRouteS {H : Type} : Nat → Store H → Nat → String → List (Middleware H) →
    Bool → List (EventS H) → Option (Store H × List (EventS H))
  | 0, _, _, _, _, _, _ => none
  | fuel + 1, σ, id, path, mws, w, log =>
    match σ[id]? with
    | none => none
    | some r =>
      let chainedPath := path ++ r.Path
      let chainedMiddleware := mws ++ r.Middlewares
      let log1 := if w then log ++ [EventS.walk id path mws] else log
      let log2 := match r.Handler with
        | some h => log1 ++ [EventS.handle (r.Method ++ " " ++ chainedPath)
            (applyMiddleware chainedMiddleware h)]
        | none => log1
      inspectRoutesS
        (fun σ2 cid log3 => inspectRouteS fuel σ2 cid chainedPath chainedMiddleware w log3)
        σ r.Routes log2

/-- Store-level `ServeMux` table of a log. -/
def muxEntriesS {H : Type} (log : List (EventS H)) : List (String × H) :=
  log.filterMap fun e => match e with
    | .handle pat h => some (pat, h)
    | .walk _ _ _ => none

/-- Store-level `Mount`: fresh router, no callback; returns the store after
the traversal together with the compiled table. -/
def MountS {H : Type} (fuel : Nat) (σ : Store H) (root : Nat) :
    Option (Store H × List (String × H)) :=
  (inspectRouteS fuel σ root "" [] false []).map fun s => (s.1, muxEntriesS s.2)

/-- Store-level `MountAndWalk`: panics on a nil callback, otherwise mounts
with the callback active. -/
def MountAndWalkS {H : Type} (fuel : Nat) (σ : Store H) (root : Nat)
    (walkFn : Option Unit) : Except String (Option (Store H × List (EventS H))) :=
  match walkFn with
  | none => .error "walkFn parameter cannot be nil"
  | some _ => .ok (inspectRouteS fuel σ root "" [] true [])

theorem inspectRoutesS_frame {H : Type}
    (f : Store H → Nat → List (EventS H) → Option (Store H × List (EventS H)))
    (hf : ∀ σ id log res, f σ id log = some res → res.1 = σ) :
    ∀ (ids : List Nat) (σ : Store H) (log : List (EventS H))
      (res : Store H × List (EventS H)),
      inspectRoutesS f σ ids log = some res → res.1 = σ := by
  intro ids
  induction ids with
  | nil =>
    intro σ log res h
    rw [inspectRoutesS] at h
    cases h
    rfl
  | cons id rest ihrest =>
    intro σ log res h
    rw [inspectRoutesS] at h
    cases hx : f σ id log with
    | none => rw [hx] at h; cases h
    | some s =>
      rw [hx] at h
      have h1 : s.1 = σ := hf σ id log s hx
      cases s with
      | mk σ2 log2 => exact (ihrest σ2 log2 res h).trans h1

theorem inspectRouteS_frame {H : Type} :
    ∀ (fuel : Nat) (σ : Store H) (id : Nat) (path : String)
      (mws : List (Middleware H)) (w : Bool) (log : List (EventS H))
      (res : Store H × List (EventS H)),
      inspectRouteS fuel σ id path mws w log = some res → res.1 = σ := by
  intro fuel
  induction fuel with
  | zero =>
    intro σ id path mws w log res h
    rw [inspectRouteS] at h
    cases h
  | succ fuel ih =>
    intro σ id path mws w log res h
    rw [inspectRouteS] at h
    cases hσ : σ[id]? with
    | none => rw [hσ] at h; cases h
    | some r =>
      rw [hσ] at h
      exact inspectRoutesS_frame _
        (fun σ2 cid log3 res2 hr => ih σ2 cid _ _ w log3 res2 hr)
        r.Routes σ _ res h

/-! ### The claims -/

/-- C1: `applyMiddleware` composes `[m0, ..., mN-1]` around a terminal
handler as `m0 (m1 (... (mN-1 H)))`: the empty list is the identity
transform, the head of the list is the outermost wrapper, and each fold step
(from the last element towards the first) wraps the accumulator with the
next-earlier middleware, so `m0` runs first at serving time and `H` last. -/
theorem applyMiddleware_composes {H : Type} (m : Middleware H)
    (mws : List (Middleware H)) (next : H) :
    applyMiddleware [] next = next ∧
    applyMiddleware (m :: mws) next = m (applyMiddleware mws next) ∧
    applyMiddleware (mws ++ [m]) next = applyMiddleware mws (m next) := by
  refine ⟨rfl, rfl, ?_⟩
  simp [applyMiddleware]

/-- C2: the middleware list composed into the handler registered for a
handler-bearing node equals the concatenation of every ancestor's own
middleware list from the root down to and including the node itself,
preserving inter-level order (root first) and intra-level order. -/
theorem mount_handler_middleware_concat {H : Type} (r : Route H) (pos : List Nat)
    (l : List (Route H)) (n : Route H) (h : H)
    (hc : Route.chain r pos = some l) (hlast : l.getLast? = some n)
    (hh : Route.Handler n = some h) :
    ∃ pat, (pat, applyMiddleware (mwConcat l) h) ∈ Route.Mount r := by
  have hm := entry_mem_specTrace false pos r "" [] l n h hc hlast hh
  rw [mount_eq_spec]
  exact ⟨_, by simpa using hm⟩

/-- C2 witness: in a two-level tree the child's registered handler is the
root middleware applied outside the child middleware around the handler. -/
theorem mount_handler_middleware_concat_witness :
    ∃ pat, (pat, (15 : Nat)) ∈ Route.Mount
      (Route.mk "/a" [fun n => n + 1]
        [Route.mk "/b" [fun n => 2 * n] [] (some 7) "GET"] none "") := by
  have h := mount_handler_middleware_concat
    (Route.mk "/a" [fun n => n + 1]
      [Route.mk "/b" [fun n => 2 * n] [] (some (7 : Nat)) "GET"] none "")
    [0]
    [Route.mk "/a" [fun n => n + 1]
      [Route.mk "/b" [fun n => 2 * n] [] (some 7) "GET"] none "",
     Route.mk "/b" [fun n => 2 * n] [] (some 7) "GET"]
    (Route.mk "/b" [fun n => 2 * n] [] (some 7) "GET") 7 rfl rfl rfl
  obtain ⟨pat, hp⟩ := h
  have e : applyMiddleware (mwConcat
      [Route.mk "/a" [fun n => n + 1]
        [Route.mk "/b" [fun n => 2 * n] [] (some (7 : Nat)) "GET"] none "",
       Route.mk "/b" [fun n => 2 * n] [] (some 7) "GET"]) 7 = 15 := rfl
  exact ⟨pat, e ▸ hp⟩

/-- C3: the path inside the pattern registered for a handler-bearing node is
the literal concatenation of every ancestor's path segment from the root
down to and including the node, with no separators inserted; `Mount` starts
the accumulation from the empty string. -/
theorem mount_pattern_path_concat {H : Type} (r : Route H) (pos : List Nat)
    (l : List (Route H)) (n : Route H) (h : H)
    (hc : Route.chain r pos = some l) (hlast : l.getLast? = some n)
    (hh : Route.Handler n = some h) :
    ∃ hv, (Route.Method n ++ " " ++ pathConcat l, hv) ∈ Route.Mount r := by
  have hm := entry_mem_specTrace false pos r "" [] l n h hc hlast hh
  rw [mount_eq_spec]
  exact ⟨applyMiddleware (mwConcat l) h, by simpa [String.empty_append] using hm⟩

/-- C3 witness: the chain `"/api"`, `"/foo"`, `""` concatenates literally to
`"/api/foo"` in the registered pattern. -/
theorem mount_pattern_path_concat_witness :
    ∃ hv, (("GET /api/foo" : String), hv) ∈ Route.Mount
      (Route.mk "/api" []
        [Route.mk "/foo" [] [Route.mk "" [] [] (some (4 : Nat)) "GET"] none ""]
        none "") := by
  have h := mount_pattern_path_concat
    (Route.mk "/api" []
      [Route.mk "/foo" [] [Route.mk "" [] [] (some (4 : Nat)) "GET"] none ""]
      none "")
    [0, 0]
    [Route.mk "/api" []
      [Route.mk "/foo" [] [Route.mk "" [] [] (some (4 : Nat)) "GET"] none ""]
      none "",
     Route.mk "/foo" [] [Route.mk "" [] [] (some (4 : Nat)) "GET"] none "",
     Route.mk "" [] [] (some (4 : Nat)) "GET"]
    (Route.mk "" [] [] (some (4 : Nat)) "GET") 4 rfl rfl rfl
  obtain ⟨hv, hp⟩ := h
  have e : Route.Method (Route.mk "" [] [] (some (4 : Nat)) "GET") ++ " " ++
      pathConcat
        [Route.mk "/api" []
          [Route.mk "/foo" [] [Route.mk "" [] [] (some (4 : Nat)) "GET"] none ""]
          none "",
         Route.mk "/foo" [] [Route.mk "" [] [] (some (4 : Nat)) "GET"] none "",
         Route.mk "" [] [] (some (4 : Nat)) "GET"] = "GET /api/foo" := rfl
  exact ⟨hv, e ▸ hp⟩

/-- C4 counterexample: the claim says a node with an empty method token is
registered with the pattern `"<path>"` alone, but the code always builds
`Method ++ " " ++ path`, so the empty method yields a pattern with a leading
space: mounting a single handler-bearing node with path `"/x"` and empty
method registers the pattern `" /x"`, which differs from `"/x"`. -/
theorem mount_empty_method_pattern_cex :
    Route.Mount (Route.mk "/x" [] [] (some (0 : Nat)) "") = [(" /x", 0)] ∧
    (" /x" : String) ≠ "/x" := by
  exact ⟨rfl, by decide⟩

/-- C4 (amended): the registered pattern is always the node's method token,
one space, then the accumulated path; when the method token is empty the
pattern is therefore a single leading space followed by the path (which the
external router parses as a method-less, any-method pattern). -/
theorem mount_pattern_method_space_path {H : Type} (r : Route H) (pos : List Nat)
    (l : List (Route H)) (n : Route H) (h : H)
    (hc : Route.chain r pos = some l) (hlast : l.getLast? = some n)
    (hh : Route.Handler n = some h) :
    (Route.Method n ++ " " ++ pathConcat l, applyMiddleware (mwConcat l) h)
      ∈ Route.Mount r ∧
    (Route.Method n = "" →
      Route.Method n ++ " " ++ pathConcat l = " " ++ pathConcat l) := by
  constructor
  · have hm := entry_mem_specTrace false pos r "" [] l n h hc hlast hh
    rw [mount_eq_spec]
    simpa [String.empty_append] using hm
  · intro hme
    rw [hme, String.empty_append]

/-- C4 witness: a root-level node with empty method and path `"/y"` is
registered under the pattern `" /y"`. -/
theorem mount_pattern_method_space_path_witness :
    ((" /y" : String), (3 : Nat)) ∈
      Route.Mount (Route.mk "/y" [] [] (some (3 : Nat)) "") ∧
    (("" : String) ++ " " ++ "/y" = " " ++ "/y") := by
  have h := mount_pattern_method_space_path
    (Route.mk "/y" [] [] (some (3 : Nat)) "") []
    [Route.mk "/y" [] [] (some (3 : Nat)) ""]
    (Route.mk "/y" [] [] (some (3 : Nat)) "") 3 rfl rfl rfl
  refine ⟨?_, h.2 rfl⟩
  have e : (Route.Method (Route.mk "/y" [] [] (some (3 : Nat)) "") ++ " " ++
      pathConcat [Route.mk "/y" [] [] (some (3 : Nat)) ""],
      applyMiddleware (mwConcat [Route.mk "/y" [] [] (some (3 : Nat)) ""]) 3) =
      ((" /y" : String), (3 : Nat)) := rfl
  exact e ▸ h.1

/-- C5: the traversal is pre-order and left-to-right — for each node the
walk-callback event comes first, then the node's own registration, then the
children's traces in order (this is what `specTrace` spells out and what the
state-passing `inspectRoute` produces) — and no node is visited more than
once: the walk calls enumerate exactly the pre-order node list, whose length
is the number of nodes of the tree. -/
theorem inspect_traversal_preorder {H : Type} (r : Route H) (path : String)
    (mws : List (Middleware H)) (w : Bool) (log : List (Event H)) :
    inspectRoute r path mws w log = log ++ specTrace w path mws r ∧
    Route.Mount r = muxEntries (specTrace false "" [] r) ∧
    (walkCalls (specTrace true path mws r)).map Prod.fst = Route.nodes r ∧
    (Route.nodes r).length = Route.size r :=
  ⟨inspectRoute_eq r path mws w log, mount_eq_spec r,
    by rw [walkCalls_specTrace]; exact specWalks_fst path mws r,
    nodes_length r⟩

/-- C6: with a non-nil callback, `MountAndWalk` succeeds, registers exactly
what `Mount` registers, and invokes the callback once per node — including
handler-less and childless nodes — with the node and the parent's
accumulated (pre-update) path and middleware list. -/
theorem mountAndWalk_callback_once {H : Type} (r : Route H) :
    Route.MountAndWalk r (some ()) = .ok (Route.Mount r, specWalks "" [] r) ∧
    (specWalks "" [] r).map Prod.fst = Route.nodes r ∧
    (Route.nodes r).length = Route.size r := by
  refine ⟨?_, specWalks_fst "" [] r, nodes_length r⟩
  show Except.ok (muxEntries (inspectRoute r "" [] true []),
      walkCalls (inspectRoute r "" [] true [])) = _
  rw [inspectRoute_eq]
  simp only [List.nil_append]
  rw [mount_eq_spec, muxEntries_specTrace_walk true, walkCalls_specTrace]

/-- C7: `Use` panics when any supplied middleware is nil and `Add` panics
when any supplied child is nil — the whole call is rejected and nothing is
appended — and when no argument is nil all elements are appended in the
order supplied, leaving every other field unchanged. -/
theorem use_add_nil_atomic {H : Type} (r : Route H) (p : String)
    (ml : List (Middleware H)) (rs : List (Route H)) (ho : Option H) (me : String)
    (args : List (Option (Middleware H))) (cargs : List (Option (Route H)))
    (ms : List (Middleware H)) (cs : List (Route H)) :
    (none ∈ args →
      Route.Use r args = .error "middlewares parameter cannot contain nil middlewares") ∧
    (none ∈ cargs →
      Route.Add r cargs = .error "routes parameter cannot contain nil routes") ∧
    Route.Use (.mk p ml rs ho me) (ms.map some) = .ok (.mk p (ml ++ ms) rs ho me) ∧
    Route.Add (.mk p ml rs ho me) (cs.map some) = .ok (.mk p ml (rs ++ cs) ho me) := by
  refine ⟨?_, ?_, ?_, ?_⟩
  · intro hn
    have ha : (args.any fun mw => mw.isNone) = true :=
      List.any_eq_true.mpr ⟨none, hn, rfl⟩
    simp [Route.Use, ha]
  · intro hn
    have ha : (cargs.any fun c => c.isNone) = true :=
      List.any_eq_true.mpr ⟨none, hn, rfl⟩
    simp [Route.Add, ha]
  · have ha : ((ms.map some).any fun mw => mw.isNone) = false := by simp
    simp [Route.Use, ha]
  · have ha : ((cs.map some).any fun c => c.isNone) = false := by simp
    simp [Route.Add, ha]

/-- C7 witness: a call mixing a valid element with a nil one is rejected,
for `Use` and for `Add`, and nil-free calls append. -/
theorem use_add_nil_atomic_witness :
    (Route.Use (Route.mk "/a" [] [] none "" : Route Nat) [some fun n => n, none] =
      .error "middlewares parameter cannot contain nil middlewares") ∧
    (Route.Add (Route.mk "/a" [] [] none "" : Route Nat)
        [some (Route.mk "/b" [] [] none ""), none] =
      .error "routes parameter cannot contain nil routes") := by
  have h := use_add_nil_atomic (Route.mk "/a" [] [] none "" : Route Nat)
    "/a" [] [] none "" [some fun n => n, none]
    [some (Route.mk "/b" [] [] none ""), none] [] []
  exact ⟨h.1 (by simp), h.2.1 (by simp)⟩

/-- C8: `MountAndWalk` with a nil callback fails immediately with the panic
message, before any traversal: no router value is produced, no node is
visited and nothing is registered. -/
theorem mountAndWalk_nil_panics {H : Type} (r : Route H) :
    Route.MountAndWalk r none = .error "walkFn parameter cannot be nil" := rfl

/-- C9: in the store-level model, mounting returns the store exactly as it
received it — neither `Mount` nor `MountAndWalk` mutates any node — and the
returned router table is a value built afresh from the store, so later
mutation of the store can only affect later mounts, never an
already-returned table. -/
theorem mount_never_mutates_store {H : Type} (fuel : Nat) (σ : Store H)
    (root : Nat) (σ2 : Store H) (mux : List (String × H))
    (res : Store H × List (EventS H)) :
    (MountS fuel σ root = some (σ2, mux) → σ2 = σ) ∧
    (MountAndWalkS fuel σ root (some ()) = .ok (some res) → res.1 = σ) := by
  constructor
  · intro hm
    rw [MountS] at hm
    cases hx : inspectRouteS fuel σ root "" [] false [] with
    | none => rw [hx] at hm; cases hm
    | some s =>
      rw [hx] at hm
      have hframe := inspectRouteS_frame fuel σ root "" [] false [] s hx
      simp only [Option.map_some'] at hm
      have h1 : s.1 = σ2 := congrArg Prod.fst (Option.some.inj hm)
      exact h1.symm.trans hframe
  · intro hw
    rw [MountAndWalkS] at hw
    exact inspectRouteS_frame fuel σ root "" [] true [] res (Except.ok.inj hw)

/-- C9 witness: mounting a concrete one-node store returns the store
unchanged next to the compiled table. -/
theorem mount_never_mutates_store_witness :
    MountS 1 ([⟨"/x", [], [], some (0 : Nat), "GET"⟩] : Store Nat) 0 =
      some ([⟨"/x", [], [], some 0, "GET"⟩], [("GET /x", 0)]) ∧
    ([⟨"/x", [], [], some (0 : Nat), "GET"⟩] : Store Nat) =
      [⟨"/x", [], [], some 0, "GET"⟩] :=
  ⟨rfl, (mount_never_mutates_store 1 [⟨"/x", [], [], some (0 : Nat), "GET"⟩] 0
    [⟨"/x", [], [], some 0, "GET"⟩] [("GET /x", 0)]
    ([⟨"/x", [], [], some 0, "GET"⟩], [])).1 rfl⟩

/-- C10: the method token of a registered pattern is the handler-bearing
node's own `Method` field, and replacing the `Method` of any strict ancestor
leaves the descendant's registered entry unchanged: `Method` is never
accumulated during traversal. -/
theorem mount_method_not_inherited {H : Type} (r : Route H) (q rest : List Nat)
    (l : List (Route H)) (n : Route H) (h : H) (nm : String)
    (hne : rest ≠ []) (hc : Route.chain r (q ++ rest) = some l)
    (hlast : l.getLast? = some n) (hh : Route.Handler n = some h) :
    (Route.Method n ++ " " ++ pathConcat l, applyMiddleware (mwConcat l) h)
      ∈ Route.Mount r ∧
    (Route.Method n ++ " " ++ pathConcat l, applyMiddleware (mwConcat l) h)
      ∈ Route.Mount (Route.updateMethod r q nm) := by
  constructor
  · have hm := entry_mem_specTrace false (q ++ rest) r "" [] l n h hc hlast hh
    rw [mount_eq_spec]
    simpa [String.empty_append] using hm
  · obtain ⟨l2, hc2, hp, hmw, hlast2⟩ := chain_updateMethod nm q r rest l hne hc
    have hl2 : l2.getLast? = some n := by rw [hlast2]; exact hlast
    have hm := entry_mem_specTrace false (q ++ rest) (Route.updateMethod r q nm)
      "" [] l2 n h hc2 hl2 hh
    rw [mount_eq_spec]
    simpa [String.empty_append, hp, hmw] using hm

/-- C10 witness: a root with method `"GET"` and a child registered as
`"PUT /r/c"`; replacing the root's method by `"DELETE"` leaves the child's
entry identical. -/
theorem mount_method_not_inherited_witness :
    (("PUT /r/c" : String), (5 : Nat)) ∈
      Route.Mount (Route.mk "/r" [] [Route.mk "/c" [] [] (some 5) "PUT"] none "GET") ∧
    (("PUT /r/c" : String), (5 : Nat)) ∈
      Route.Mount (Route.updateMethod
        (Route.mk "/r" [] [Route.mk "/c" [] [] (some (5 : Nat)) "PUT"] none "GET")
        [] "DELETE") := by
  have h := mount_method_not_inherited
    (Route.mk "/r" [] [Route.mk "/c" [] [] (some (5 : Nat)) "PUT"] none "GET")
    [] [0]
    [Route.mk "/r" [] [Route.mk "/c" [] [] (some 5) "PUT"] none "GET",
     Route.mk "/c" [] [] (some 5) "PUT"]
    (Route.mk "/c" [] [] (some 5) "PUT") 5 "DELETE" (by decide) rfl rfl rfl
  have e : (Route.Method (Route.mk "/c" [] [] (some (5 : Nat)) "PUT") ++ " " ++
      pathConcat [Route.mk "/r" [] [Route.mk "/c" [] [] (some (5 : Nat)) "PUT"] none "GET",
        Route.mk "/c" [] [] (some 5) "PUT"],
      applyMiddleware (mwConcat
        [Route.mk "/r" [] [Route.mk "/c" [] [] (some (5 : Nat)) "PUT"] none "GET",
         Route.mk "/c" [] [] (some 5) "PUT"]) 5) = (("PUT /r/c" : String), (5 : Nat)) := rfl
  exact ⟨e ▸ h.1, e ▸ h.2⟩

end SimpleRouter
